import Mathlib

/-!
Shallow embedding of the recommendation/statistics subsystem of the
Lovepython quiz platform (learning_system.py and the CSV import of app.py),
together with theorems checking the specification claims against it.

Modelling conventions:
- Python floats are modelled as rationals; timestamps are rational seconds.
- Python dicts are modelled as association lists in insertion order, which
  matches dict iteration order; defaultdict access appends the key on first
  use.
- Python list.sort is a stable sort driven by the lt method of the element
  type; a stable sort with respect to a total preorder has a unique result,
  so it is modelled with List.insertionSort (stable, structurally
  recursive) over the relation "not (other lt self)".
- random.uniform (-5, 5) is modelled as an arbitrary rational parameter
  constrained to the interval.
-/

namespace LearningSystem

/-- Question dataclass from learning_system.py. Difficulty, type and
category are optional strings, as in the Python source where the database
may hold NULL; options is the parsed JSON object. -/
structure Question where
  id : String
  stem : String
  answer : String
  difficulty : Option String
  qtype : Option String
  category : Option String
  options : List (String × String)
deriving DecidableEq

/-- UserAnswer dataclass: one history row. Timestamp is in seconds. -/
structure UserAnswer where
  user_id : Int
  question_id : String
  user_answer : String
  correct : Bool
  timestamp : ℚ
deriving DecidableEq

/-- Recommendation dataclass. -/
structure Recommendation where
  question_id : String
  score : ℚ
  reason : String
  priority : ℕ
deriving DecidableEq

/-- Python truthiness of an Optional[str] field: None and the empty string
are falsy. -/
def strTruthy : Option String → Bool
  | some s => s ≠ ""
  | none => false

/-- QuestionManager.get_question via the database: first question with the
given id (ids are a primary key). -/
def get_question (questions : List Question) (qid : String) : Option Question :=
  questions.find? (fun q => q.id == qid)

/-- Counters held in the defaultdict buckets of StatisticsAnalyzer.analyze. -/
structure BucketCount where
  total : ℕ
  correct : ℕ
deriving DecidableEq

/-- One bucket of the calc_accuracy output: total, correct, accuracy. -/
structure BucketStat where
  total : ℕ
  correct : ℕ
  accuracy : ℚ
deriving DecidableEq

/-- One weak-area entry: category plus its accuracy. -/
structure WeakArea where
  category : String
  accuracy : ℚ
deriving DecidableEq

/-- Result structure of StatisticsAnalyzer.analyze. -/
structure Stats where
  overall_accuracy : ℚ
  difficulty_stats : List (String × BucketStat)
  category_stats : List (String × BucketStat)
  type_stats : List (String × BucketStat)
  weak_areas : List WeakArea
deriving DecidableEq

/-- defaultdict update: bump the counters of a key, appending the key on
first access (dict insertion order). -/
def bump (m : List (String × BucketCount)) (key : String) (corr : Bool) :
    List (String × BucketCount) :=
  match m with
  | [] => [(key, ⟨1, if corr then 1 else 0⟩)]
  | (k, c) :: rest =>
    if k = key then
      (k, ⟨c.total + 1, c.correct + (if corr then 1 else 0)⟩) :: rest
    else
      (k, c) :: bump rest key corr

/-- The per-bucket counting loop of StatisticsAnalyzer.analyze for one of
the three bucket fields: for each answer, look the question up and, when
the field is truthy, count the attempt (and the correct flag) in that
bucket. -/
def statFold (questions : List Question) (answers : List UserAnswer)
    (fld : Question → Option String) : List (String × BucketCount) :=
  answers.foldl
    (fun m a =>
      match get_question questions a.question_id with
      | some q =>
        match fld q with
        | some s => if s = "" then m else bump m s a.correct
        | none => m
      | none => m)
    []

/-- calc_accuracy in StatisticsAnalyzer.analyze: accuracy is
correct / total * 100, or 0 for an empty bucket. -/
def calcAccuracy (m : List (String × BucketCount)) : List (String × BucketStat) :=
  m.map (fun p =>
    (p.1, ⟨p.2.total, p.2.correct,
      if 0 < p.2.total then (p.2.correct : ℚ) / (p.2.total : ℚ) * 100 else 0⟩))

/-- The zero-filled default returned by analyze for a user with no history. -/
def emptyStats : Stats :=
  { overall_accuracy := 0
    difficulty_stats := []
    category_stats := []
    type_stats := []
    weak_areas := [] }

/-- Sort relation used for the weak-area sort, Python
list.sort with key accuracy: stable, ascending by accuracy. -/
def waLe (a b : WeakArea) : Prop := a.accuracy ≤ b.accuracy

instance : DecidableRel waLe := fun a b => inferInstanceAs (Decidable (a.accuracy ≤ b.accuracy))

instance : IsTotal WeakArea waLe := ⟨fun a b => le_total a.accuracy b.accuracy⟩

instance : IsTrans WeakArea waLe := ⟨fun _ _ _ h h' => le_trans h h'⟩

/-- StatisticsAnalyzer.analyze: overall accuracy, per-difficulty,
per-category and per-type accuracy buckets, and the weak areas (categories
with accuracy below 60 and at least 3 attempts, sorted ascending by
accuracy, first 5 kept). -/
def analyze (questions : List Question) (answers : List UserAnswer) : Stats :=
  if answers.isEmpty then emptyStats
  else
    let correct_count := (answers.filter (·.correct)).length
    let overall := (correct_count : ℚ) / (answers.length : ℚ) * 100
    let dstats := calcAccuracy (statFold questions answers (·.difficulty))
    let cstats := calcAccuracy (statFold questions answers (·.category))
    let tstats := calcAccuracy (statFold questions answers (·.qtype))
    let weakAll := (cstats.filter
        (fun p => decide (p.2.accuracy < 60) && decide (3 ≤ p.2.total))).map
      (fun p => WeakArea.mk p.1 p.2.accuracy)
    { overall_accuracy := overall
      difficulty_stats := dstats
      category_stats := cstats
      type_stats := tstats
      weak_areas := (weakAll.insertionSort waLe).take 5 }

/-- The category buckets that qualify as weak areas in
StatisticsAnalyzer.analyze: accuracy below 60 and at least 3 attempts. -/
def qualifyingWeak (s : Stats) : List (String × BucketStat) :=
  s.category_stats.filter (fun p => decide (p.2.accuracy < 60) && decide (3 ≤ p.2.total))

theorem analyze_category_stats (questions : List Question) (answers : List UserAnswer)
    (h : answers ≠ []) :
    (analyze questions answers).category_stats =
      calcAccuracy (statFold questions answers (·.category)) := by
  have hne : answers.isEmpty = false := by simp [h]
  simp [analyze, hne]

theorem analyze_weak_areas_eq (questions : List Question) (answers : List UserAnswer)
    (h : answers ≠ []) :
    (analyze questions answers).weak_areas =
      (((qualifyingWeak (analyze questions answers)).map
          (fun p => WeakArea.mk p.1 p.2.accuracy)).insertionSort waLe).take 5 := by
  have hne : answers.isEmpty = false := by simp [h]
  simp [analyze, hne, qualifyingWeak, analyze_category_stats questions answers h]

/-- C7: for a user with no history rows, StatisticsAnalyzer.analyze
returns the zero-filled default structure: overall accuracy 0, empty
difficulty, category and type buckets, and an empty weak-area list. -/
theorem C7_analyze_empty_defaults (questions : List Question) :
    (analyze questions []).overall_accuracy = 0 ∧
    (analyze questions []).difficulty_stats = [] ∧
    (analyze questions []).category_stats = [] ∧
    (analyze questions []).type_stats = [] ∧
    (analyze questions []).weak_areas = [] := by
  simp [analyze, emptyStats]

/-- C3: for a user with at least one history row, the weak-area list of
StatisticsAnalyzer.analyze has at most 5 entries, is sorted ascending by
accuracy, every entry comes from a category bucket with accuracy below 60
and at least 3 attempts, and when at most 5 categories qualify every
qualifying category appears in the list. -/
theorem C3_weak_areas (questions : List Question) (answers : List UserAnswer)
    (h : answers ≠ []) :
    (analyze questions answers).weak_areas.length ≤ 5 ∧
    (analyze questions answers).weak_areas.Pairwise (fun a b => a.accuracy ≤ b.accuracy) ∧
    (∀ w ∈ (analyze questions answers).weak_areas,
      ∃ st, (w.category, st) ∈ (analyze questions answers).category_stats ∧
        st.accuracy < 60 ∧ 3 ≤ st.total ∧ w.accuracy = st.accuracy) ∧
    ((qualifyingWeak (analyze questions answers)).length ≤ 5 →
      ∀ p ∈ qualifyingWeak (analyze questions answers),
        WeakArea.mk p.1 p.2.accuracy ∈ (analyze questions answers).weak_areas) := by
  rw [analyze_weak_areas_eq questions answers h]
  refine ⟨?_, ?_, ?_, ?_⟩
  · exact List.length_take_le 5 _
  · exact ((List.sorted_insertionSort waLe _).sublist (List.take_sublist 5 _)).imp
      (fun hw => hw)
  · intro w hw
    have hw1 : w ∈ (qualifyingWeak (analyze questions answers)).map
        (fun p => WeakArea.mk p.1 p.2.accuracy) := by
      have := List.take_subset 5 _ hw
      exact (List.mem_insertionSort waLe).mp this
    rcases List.mem_map.mp hw1 with ⟨p, hp, hpw⟩
    rcases List.mem_filter.mp hp with ⟨hpmem, hpcond⟩
    rcases (Bool.and_eq_true _ _).mp hpcond with ⟨hacc, htot⟩
    refine ⟨p.2, ?_, of_decide_eq_true hacc, of_decide_eq_true htot, ?_⟩
    · have : w.category = p.1 := by rw [← hpw]
      rw [this]
      simpa using hpmem
    · rw [← hpw]
  · intro hlen p hp
    have hlen2 : (((qualifyingWeak (analyze questions answers)).map
        (fun p => WeakArea.mk p.1 p.2.accuracy)).insertionSort waLe).length ≤ 5 := by
      rw [List.length_insertionSort, List.length_map]
      exact hlen
    rw [List.take_of_length_le hlen2]
    exact (List.mem_insertionSort waLe).mpr
      (List.mem_map_of_mem (fun p => WeakArea.mk p.1 p.2.accuracy) hp)

/-- Concrete question used by the C3 witness. -/
def wQs3 : List Question :=
  [⟨"1", "题干", "A", some "易", some "单选题", some "数学", [("A", "1"), ("B", "2")]⟩]

/-- Concrete history (three wrong answers in one category) used by the C3
witness. -/
def wAns3 : List UserAnswer :=
  [⟨1, "1", "B", false, 200⟩, ⟨1, "1", "C", false, 100⟩, ⟨1, "1", "B", false, 0⟩]

theorem C3_weak_areas_witness :
    wAns3 ≠ [] ∧
    ((analyze wQs3 wAns3).weak_areas.length ≤ 5 ∧
    (analyze wQs3 wAns3).weak_areas.Pairwise (fun a b => a.accuracy ≤ b.accuracy) ∧
    (∀ w ∈ (analyze wQs3 wAns3).weak_areas,
      ∃ st, (w.category, st) ∈ (analyze wQs3 wAns3).category_stats ∧
        st.accuracy < 60 ∧ 3 ≤ st.total ∧ w.accuracy = st.accuracy) ∧
    ((qualifyingWeak (analyze wQs3 wAns3)).length ≤ 5 →
      ∀ p ∈ qualifyingWeak (analyze wQs3 wAns3),
        WeakArea.mk p.1 p.2.accuracy ∈ (analyze wQs3 wAns3).weak_areas)) :=
  ⟨by decide, C3_weak_areas wQs3 wAns3 (by decide)⟩

/-- Weak-area bonus of _calculate_recommendation_score: 30 when the
question category occurs in the category list of the weak areas (a None
category is never a member). -/
def weak_bonus (stats : Stats) (q : Question) : ℚ :=
  match q.category with
  | some c => if (stats.weak_areas.map (·.category)).contains c then 30 else 0
  | none => 0

/-- Difficulty bonus of _calculate_recommendation_score: 20 when the
difficulty is a key of difficulty_stats and that bucket has accuracy
below 60. -/
def diff_bonus (stats : Stats) (q : Question) : ℚ :=
  match q.difficulty with
  | some d =>
    match (stats.difficulty_stats.find? (fun p => p.1 == d)).map (·.2) with
    | some st => if st.accuracy < 60 then 20 else 0
    | none => 0
  | none => 0

/-- Type bonus of _calculate_recommendation_score: 15 when the question
type is a key of type_stats and that bucket has accuracy below 70. -/
def type_bonus (stats : Stats) (q : Question) : ℚ :=
  match q.qtype with
  | some t =>
    match (stats.type_stats.find? (fun p => p.1 == t)).map (·.2) with
    | some st => if st.accuracy < 70 then 15 else 0
    | none => 0
  | none => 0

/-- RecommendationEngine._calculate_recommendation_score: base 50, the
three guarded bonuses added in turn, then the random jitter, clamped with
min 100 (max 0 _). -/
def calculate_recommendation_score (q : Question) (stats : Stats) (jitter : ℚ) : ℚ :=
  min 100 (max 0 (50 + weak_bonus stats q + diff_bonus stats q + type_bonus stats q + jitter))

/-- RecommendationEngine._generate_recommendation_reason. -/
def generate_recommendation_reason (q : Question) (stats : Stats) : String :=
  let reasons : List String :=
    (match q.category with
      | some c =>
        if (stats.weak_areas.map (·.category)).contains c then ["属于薄弱环节：" ++ c] else []
      | none => []) ++
    (match q.difficulty with
      | some d =>
        match (stats.difficulty_stats.find? (fun p => p.1 == d)).map (·.2) with
        | some st => if st.accuracy < 60 then ["该难度题目需要加强练习"] else []
        | none => []
      | none => [])
  let reasons := if reasons.isEmpty then ["根据您的学习情况推荐"] else reasons
  String.intercalate "；" reasons

/-- RecommendationEngine._determine_priority. -/
def determine_priority (score : ℚ) : ℕ :=
  if 70 ≤ score then 1 else if 50 ≤ score then 2 else 3

/-- The lt method of the Recommendation dataclass: by priority when the
priorities differ, otherwise by greater score. -/
def recLt (a b : Recommendation) : Bool :=
  if a.priority ≠ b.priority then decide (a.priority < b.priority)
  else decide (b.score < a.score)

/-- The sort order realised by Python list.sort over recLt: an element may
precede another when the second is not lt the first. -/
def recSortRel (a b : Recommendation) : Prop := recLt b a = false

instance : DecidableRel recSortRel :=
  fun a b => inferInstanceAs (Decidable (recLt b a = false))

theorem recSortRel_iff (a b : Recommendation) :
    recSortRel a b ↔
      a.priority < b.priority ∨ (a.priority = b.priority ∧ b.score ≤ a.score) := by
  unfold recSortRel recLt
  by_cases h : b.priority = a.priority
  · simp [h, not_lt]
  · have h2 : ¬ a.priority = b.priority := fun hh => h hh.symm
    simp only [h, not_false_iff, if_true, ne_eq, decide_eq_false_iff_not, not_lt, h2,
      false_and, or_false]
    omega

instance : IsTotal Recommendation recSortRel := by
  constructor
  intro a b
  rw [recSortRel_iff, recSortRel_iff]
  rcases Nat.lt_trichotomy a.priority b.priority with h | h | h
  · exact Or.inl (Or.inl h)
  · rcases le_total b.score a.score with hs | hs
    · exact Or.inl (Or.inr ⟨h, hs⟩)
    · exact Or.inr (Or.inr ⟨h.symm, hs⟩)
  · exact Or.inr (Or.inl h)

instance : IsTrans Recommendation recSortRel := by
  constructor
  intro a b c hab hbc
  rw [recSortRel_iff] at hab hbc ⊢
  rcases hab with h1 | ⟨h1, hs1⟩ <;> rcases hbc with h2 | ⟨h2, hs2⟩
  · exact Or.inl (h1.trans h2)
  · exact Or.inl (h2 ▸ h1)
  · exact Or.inl (h1 ▸ h2)
  · exact Or.inr ⟨h1.trans h2, hs2.trans hs1⟩

/-- The Recommendation object built inside recommend_questions for one
unanswered question. -/
def build_recommendation (q : Question) (stats : Stats) (j : ℚ) : Recommendation :=
  { question_id := q.id
    score := calculate_recommendation_score q stats j
    reason := generate_recommendation_reason q stats
    priority := determine_priority (calculate_recommendation_score q stats j) }

/-- RecommendationEngine.recommend_questions: drop answered questions,
score the rest against the analysis, sort by the Recommendation order and
return the first count entries. The jitter function stands for the
independent random.uniform (-5, 5) draws. -/
def recommend_questions (questions : List Question) (answers : List UserAnswer)
    (jitter : Question → ℚ) (count : ℕ) : List Recommendation :=
  let answered := answers.map (·.question_id)
  let unanswered := questions.filter (fun q => !(answered.contains q.id))
  let stats := analyze questions answers
  let recs := unanswered.map (fun q => build_recommendation q stats (jitter q))
  (recs.insertionSort recSortRel).take count

/-- Spec-side reading of the weak-area bonus condition: the question has a
category and it occurs among the weak-area categories. -/
def inWeakAreas (stats : Stats) (q : Question) : Bool :=
  match q.category with
  | some c => (stats.weak_areas.map (·.category)).contains c
  | none => false

/-- Spec-side reading of the bucket-accuracy conditions: the bucket for the
given label exists and its accuracy is below the threshold. -/
def bucketBelow (m : List (String × BucketStat)) (k : Option String) (t : ℚ) : Bool :=
  match k with
  | some s =>
    match (m.find? (fun p => p.1 == s)).map (·.2) with
    | some st => decide (st.accuracy < t)
    | none => false
  | none => false

theorem weak_bonus_eq (stats : Stats) (q : Question) :
    weak_bonus stats q = if inWeakAreas stats q then (30 : ℚ) else 0 := by
  unfold weak_bonus inWeakAreas
  cases q.category <;> simp

theorem diff_bonus_eq (stats : Stats) (q : Question) :
    diff_bonus stats q =
      if bucketBelow stats.difficulty_stats q.difficulty 60 then (20 : ℚ) else 0 := by
  unfold diff_bonus bucketBelow
  cases q.difficulty with
  | none => simp
  | some d =>
    cases hf : (stats.difficulty_stats.find? (fun p => p.1 == d)).map (·.2) with
    | none => simp [hf]
    | some st => by_cases hacc : st.accuracy < 60 <;> simp [hf, hacc]

theorem type_bonus_eq (stats : Stats) (q : Question) :
    type_bonus stats q =
      if bucketBelow stats.type_stats q.qtype 70 then (15 : ℚ) else 0 := by
  unfold type_bonus bucketBelow
  cases q.qtype with
  | none => simp
  | some t =>
    cases hf : (stats.type_stats.find? (fun p => p.1 == t)).map (·.2) with
    | none => simp [hf]
    | some st => by_cases hacc : st.accuracy < 70 <;> simp [hf, hacc]

theorem score_eq_formula (q : Question) (stats : Stats) (j : ℚ) :
    calculate_recommendation_score q stats j =
      min 100 (max 0 (50
        + (if inWeakAreas stats q then (30 : ℚ) else 0)
        + (if bucketBelow stats.difficulty_stats q.difficulty 60 then (20 : ℚ) else 0)
        + (if bucketBelow stats.type_stats q.qtype 70 then (15 : ℚ) else 0)
        + j)) := by
  rw [calculate_recommendation_score, weak_bonus_eq, diff_bonus_eq, type_bonus_eq]

theorem mem_recommend_questions {questions : List Question} {answers : List UserAnswer}
    {jitter : Question → ℚ} {count : ℕ} {r : Recommendation}
    (hr : r ∈ recommend_questions questions answers jitter count) :
    ∃ q ∈ questions, (∀ a ∈ answers, a.question_id ≠ q.id) ∧
      r = build_recommendation q (analyze questions answers) (jitter q) := by
  unfold recommend_questions at hr
  have hr2 := (List.mem_insertionSort recSortRel).mp (List.take_subset count _ hr)
  rcases List.mem_map.mp hr2 with ⟨q, hq, hqr⟩
  rcases List.mem_filter.mp hq with ⟨hqmem, hqb⟩
  refine ⟨q, hqmem, ?_, hqr.symm⟩
  intro a ha hEq
  have : q.id ∈ answers.map (·.question_id) :=
    List.mem_map.mpr ⟨a, ha, hEq⟩
  simp at hqb
  exact hqb a ha hEq

/-- C1: every recommendation returned by recommend_questions belongs to an
unanswered question, and its score is 50 plus 30 for a weak-area category,
plus 20 for a difficulty bucket with accuracy below 60, plus 15 for a type
bucket with accuracy below 70, plus a jitter in the interval from -5 to 5,
clamped to the interval from 0 to 100; its priority is 1 when the score is
at least 70, 2 when it is at least 50, and 3 otherwise. -/
theorem C1_recommendation_score_and_priority
    (questions : List Question) (answers : List UserAnswer)
    (jitter : Question → ℚ) (count : ℕ)
    (hj : ∀ q, -5 ≤ jitter q ∧ jitter q ≤ 5) :
    ∀ r ∈ recommend_questions questions answers jitter count,
      ∃ q j, q ∈ questions ∧ (∀ a ∈ answers, a.question_id ≠ q.id) ∧
        r.question_id = q.id ∧ -5 ≤ j ∧ j ≤ 5 ∧
        r.score = min 100 (max 0 (50
          + (if inWeakAreas (analyze questions answers) q then (30 : ℚ) else 0)
          + (if bucketBelow (analyze questions answers).difficulty_stats q.difficulty 60
              then (20 : ℚ) else 0)
          + (if bucketBelow (analyze questions answers).type_stats q.qtype 70
              then (15 : ℚ) else 0)
          + j)) ∧
        0 ≤ r.score ∧ r.score ≤ 100 ∧
        r.priority = (if 70 ≤ r.score then 1 else if 50 ≤ r.score then 2 else 3) := by
  intro r hr
  rcases mem_recommend_questions hr with ⟨q, hqmem, hunans, rfl⟩
  refine ⟨q, jitter q, hqmem, hunans, rfl, (hj q).1, (hj q).2, ?_, ?_, ?_, ?_⟩
  · exact score_eq_formula q (analyze questions answers) (jitter q)
  · show (0 : ℚ) ≤ calculate_recommendation_score q (analyze questions answers) (jitter q)
    unfold calculate_recommendation_score
    exact le_min (by norm_num) (le_max_left 0 _)
  · show calculate_recommendation_score q (analyze questions answers) (jitter q) ≤ 100
    unfold calculate_recommendation_score
    exact min_le_left 100 _
  · rfl

/-- Concrete data for the C1 witness: one question, no history, zero
jitter. -/
def wQs1 : List Question := [⟨"q1", "题干", "A", some "中", some "单选题", some "语文", []⟩]

theorem C1_witness :
    (∀ q, -5 ≤ (fun _ : Question => (0 : ℚ)) q ∧ (fun _ : Question => (0 : ℚ)) q ≤ 5) ∧
    ∀ r ∈ recommend_questions wQs1 [] (fun _ => 0) 1,
      ∃ q j, q ∈ wQs1 ∧ (∀ a ∈ ([] : List UserAnswer), a.question_id ≠ q.id) ∧
        r.question_id = q.id ∧ -5 ≤ j ∧ j ≤ 5 ∧
        r.score = min 100 (max 0 (50
          + (if inWeakAreas (analyze wQs1 []) q then (30 : ℚ) else 0)
          + (if bucketBelow (analyze wQs1 []).difficulty_stats q.difficulty 60
              then (20 : ℚ) else 0)
          + (if bucketBelow (analyze wQs1 []).type_stats q.qtype 70
              then (15 : ℚ) else 0)
          + j)) ∧
        0 ≤ r.score ∧ r.score ≤ 100 ∧
        r.priority = (if 70 ≤ r.score then 1 else if 50 ≤ r.score then 2 else 3) :=
  ⟨fun _ => by norm_num,
   C1_recommendation_score_and_priority wQs1 [] (fun _ => 0) 1 (fun _ => by norm_num)⟩

/-- C2: the list returned by recommend_questions only mentions questions
absent from the history of the user, is pairwise ordered by ascending
priority and, at equal priority, by descending score, and has at most
count entries. -/
theorem C2_recommend_questions_shape
    (questions : List Question) (answers : List UserAnswer)
    (jitter : Question → ℚ) (count : ℕ) :
    (∀ r ∈ recommend_questions questions answers jitter count,
      ∀ a ∈ answers, a.question_id ≠ r.question_id) ∧
    (recommend_questions questions answers jitter count).Pairwise
      (fun x y => x.priority < y.priority ∨ (x.priority = y.priority ∧ y.score ≤ x.score)) ∧
    (recommend_questions questions answers jitter count).length ≤ count := by
  refine ⟨?_, ?_, ?_⟩
  · intro r hr a ha
    rcases mem_recommend_questions hr with ⟨q, _, hunans, rfl⟩
    exact hunans a ha
  · have hs : (recommend_questions questions answers jitter count).Pairwise recSortRel := by
      unfold recommend_questions
      exact (List.sorted_insertionSort recSortRel _).sublist (List.take_sublist count _)
    exact hs.imp (fun h => (recSortRel_iff _ _).mp h)
  · unfold recommend_questions
    exact List.length_take_le count _

/-- The wrong answers of one user for one question, in history order. The
wrong_answers dict of recommend_wrong_questions keeps, for each question
id, the last such answer in iteration order; the error count of the same
method counts exactly this list. -/
def wrongFor (answers : List UserAnswer) (qid : String) : List UserAnswer :=
  answers.filter (fun a => a.question_id == qid && !a.correct)

/-- LearningProgressTracker.get_wrong_questions: the distinct ids of
incorrectly answered questions, resolved to question objects. The Python
code materialises a set whose iteration order is unspecified; it is
modelled in first-occurrence order, on which no claim depends. -/
def get_wrong_questions (questions : List Question) (answers : List UserAnswer) :
    List Question :=
  (((answers.filter (fun a => !a.correct)).map (·.question_id)).eraseDups).filterMap
    (fun qid => get_question questions qid)

/-- Days component of a datetime difference: floor of the difference in
seconds divided by 86400. -/
def daysBetween (now ts : ℚ) : ℤ := ⌊(now - ts) / 86400⌋

/-- RecommendationEngine.recommend_wrong_questions: for the first count
wrong questions, score by error count times 20 plus days since the stored
wrong answer times 2, capped at 100; priority 1 from two errors on. -/
def recommend_wrong_questions (questions : List Question) (answers : List UserAnswer)
    (now : ℚ) (count : ℕ) : List Recommendation :=
  let wrong_questions := get_wrong_questions questions answers
  let recs := (wrong_questions.take count).filterMap (fun q =>
    match (wrongFor answers q.id).getLast? with
    | some answer =>
      let error_count := (wrongFor answers q.id).length
      let score : ℚ :=
        min 100 ((error_count : ℚ) * 20 + (daysBetween now answer.timestamp : ℚ) * 2)
      some { question_id := q.id
             score := score
             reason := "已错误" ++ toString error_count ++ "次，建议重点复习"
             priority := if 2 ≤ error_count then 1 else 2 }
    | none => none)
  recs.insertionSort recSortRel

/-- Concrete question for the C4 scenario. -/
def cq4 : Question := ⟨"q1", "题干", "A", some "中", some "单选题", some "数学", []⟩

/-- Four wrong answers to question q1, newest first, as get_user_answers
returns them (ORDER BY timestamp DESC): at 15, 10, 5 and 0 days after the
epoch. -/
def cAns4 : List UserAnswer :=
  [⟨1, "q1", "B", false, 1296000⟩, ⟨1, "q1", "C", false, 864000⟩,
   ⟨1, "q1", "D", false, 432000⟩, ⟨1, "q1", "B", false, 0⟩]

/-- The lookup moment of the C4 scenario: the time of the newest wrong
answer, so 0 days have passed since the most recent error. -/
def cNow4 : ℚ := 1296000

/-- C4 counterexample: with four wrong answers to q1 (error count 4, most
recent error 0 days ago), the code returns score 100 because it caps the
score at 100 and measures days from the oldest stored wrong answer (15
days), while the claimed formula gives 4 times 20 plus 0 times 2 equal
to 80. -/
theorem C4_counterexample :
    recommend_wrong_questions [cq4] cAns4 cNow4 5 =
      [{ question_id := "q1", score := 100, reason := "已错误4次，建议重点复习",
         priority := 1 }] ∧
    ((wrongFor cAns4 "q1").length : ℚ) * 20 + (daysBetween cNow4 1296000 : ℚ) * 2 = 80 ∧
    (100 : ℚ) ≠ 80 := by
  have hwq : get_wrong_questions [cq4] cAns4 = [cq4] := by decide
  have htake : ([cq4].take 5) = [cq4] := by decide
  have hid : cq4.id = "q1" := rfl
  have hlast : (wrongFor cAns4 "q1").getLast? =
      some ⟨1, "q1", "B", false, 0⟩ := by decide
  have hlen : (wrongFor cAns4 "q1").length = 4 := by decide
  have hdays0 : daysBetween cNow4 0 = 15 := by norm_num [daysBetween, cNow4]
  have hdays1 : daysBetween cNow4 1296000 = 0 := by norm_num [daysBetween, cNow4]
  have hstr : ("已错误" ++ toString (4 : ℕ) ++ "次，建议重点复习") =
      "已错误4次，建议重点复习" := by decide
  refine ⟨?_, by rw [hlen, hdays1]; norm_num, by norm_num⟩
  simp only [recommend_wrong_questions, hwq, htake, List.filterMap_cons, List.filterMap_nil,
    hid, hlast, hlen, hdays0, hstr]
  norm_num [List.insertionSort, List.orderedInsert]

theorem getLast?_min_of_desc {l : List UserAnswer} {x : UserAnswer}
    (hp : l.Pairwise (fun a b => b.timestamp ≤ a.timestamp))
    (hx : l.getLast? = some x) :
    x ∈ l ∧ ∀ a ∈ l, x.timestamp ≤ a.timestamp := by
  induction l with
  | nil => simp at hx
  | cons h t ih =>
    cases t with
    | nil =>
      simp at hx
      subst hx
      simp
    | cons h2 t2 =>
      rw [List.getLast?_cons_cons] at hx
      rcases ih (List.Pairwise.of_cons hp) hx with ⟨hmem, hmin⟩
      refine ⟨List.mem_cons_of_mem h hmem, ?_⟩
      intro a ha
      rcases List.mem_cons.mp ha with rfl | ha2
      · exact (List.rel_of_pairwise_cons hp hmem)
      · exact hmin a ha2

/-- C4 amended: every recommendation of recommend_wrong_questions carries
score min 100 (error count times 20 plus days since the OLDEST wrong
answer to that question times 2) - capped at 100, and measured from the
earliest error because the wrong-answer dict is built over the
newest-first history so the oldest entry wins - and priority 1 when the
error count is at least 2, otherwise 2. -/
theorem C4_amended_wrong_question_score
    (questions : List Question) (answers : List UserAnswer) (now : ℚ) (count : ℕ)
    (hsorted : answers.Pairwise (fun a b => b.timestamp ≤ a.timestamp)) :
    ∀ r ∈ recommend_wrong_questions questions answers now count,
      ∃ q, q ∈ questions ∧ r.question_id = q.id ∧
        (∃ a ∈ wrongFor answers q.id,
          (∀ b ∈ wrongFor answers q.id, a.timestamp ≤ b.timestamp) ∧
          r.score = min 100 (((wrongFor answers q.id).length : ℚ) * 20
            + (daysBetween now a.timestamp : ℚ) * 2)) ∧
        r.priority = (if 2 ≤ (wrongFor answers q.id).length then 1 else 2) := by
  intro r hr
  unfold recommend_wrong_questions at hr
  have hr2 := (List.mem_insertionSort recSortRel).mp hr
  rcases List.mem_filterMap.mp hr2 with ⟨q, hq, hfq⟩
  have hqmem : q ∈ questions := by
    have hq2 : q ∈ get_wrong_questions questions answers := List.take_subset count _ hq
    rcases List.mem_filterMap.mp hq2 with ⟨qid, _, hfind⟩
    exact List.mem_of_find?_eq_some hfind
  cases hlast : (wrongFor answers q.id).getLast? with
  | none => rw [hlast] at hfq; simp at hfq
  | some answer =>
    rw [hlast] at hfq
    simp only [Option.some.injEq] at hfq
    rcases getLast?_min_of_desc (hsorted.filter _) hlast with ⟨hmem, hmin⟩
    refine ⟨q, hqmem, ?_, ⟨answer, hmem, hmin, ?_⟩, ?_⟩
    · rw [← hfq]
    · rw [← hfq]
    · rw [← hfq]

/-- Concrete data for the C4 witness: one wrong answer one day before the
lookup moment. -/
def wAns4 : List UserAnswer := [⟨1, "q1", "B", false, 0⟩]

/-- Lookup moment for the C4 witness: one day after the only error. -/
def wNow4 : ℚ := 86400

theorem C4_amended_witness :
    wAns4.Pairwise (fun a b => b.timestamp ≤ a.timestamp) ∧
    ∀ r ∈ recommend_wrong_questions [cq4] wAns4 wNow4 5,
      ∃ q, q ∈ [cq4] ∧ r.question_id = q.id ∧
        (∃ a ∈ wrongFor wAns4 q.id,
          (∀ b ∈ wrongFor wAns4 q.id, a.timestamp ≤ b.timestamp) ∧
          r.score = min 100 (((wrongFor wAns4 q.id).length : ℚ) * 20
            + (daysBetween wNow4 a.timestamp : ℚ) * 2)) ∧
        r.priority = (if 2 ≤ (wrongFor wAns4 q.id).length then 1 else 2) :=
  ⟨by decide,
   C4_amended_wrong_question_score [cq4] wAns4 wNow4 5 (by decide)⟩

/-! ### Cache manager

CacheManager holds two dicts, key to value and key to insertion timestamp,
with a fixed TTL of 3600 seconds and max size 1000. Dicts are modelled as
association lists in insertion order; values get a type parameter. The
data semantics of each method is modelled functionally; the mutex
behaviour is modelled separately as a trace of lock events. -/

/-- Python dict lookup. -/
def dictLookup {α : Type} (m : List (String × α)) (k : String) : Option α :=
  (m.find? (fun p => p.1 == k)).map (·.2)

/-- Python dict assignment: overwrite in place when the key exists,
otherwise append (insertion order). -/
def dictInsert {α : Type} (m : List (String × α)) (k : String) (v : α) :
    List (String × α) :=
  if (m.find? (fun p => p.1 == k)).isSome then
    m.map (fun p => if p.1 == k then (k, v) else p)
  else
    m ++ [(k, v)]

/-- Python dict del (keys are unique, so removing every binding of the key
is the same operation). -/
def dictDelete {α : Type} (m : List (String × α)) (k : String) : List (String × α) :=
  m.filter (fun p => !(p.1 == k))

/-- The fixed TTL of CacheManager, in seconds. -/
def cacheTTL : ℚ := 3600

/-- The fixed maximum size of CacheManager. -/
def cacheMaxSize : ℕ := 1000

/-- The mutable state of CacheManager: the value dict and the timestamp
dict. -/
structure CacheState (α : Type) where
  cache : List (String × α)
  timestamps : List (String × ℚ)
deriving DecidableEq

/-- The empty initial cache. -/
def emptyCache (α : Type) : CacheState α := ⟨[], []⟩

/-- CacheManager.get at the moment now: a hit within the TTL returns the
value; an expired entry is deleted from both dicts and None is returned; a
value without a timestamp is returned with no expiry check (the fallback
branch). Returns the result and the state after the call. -/
def cacheGet {α : Type} (s : CacheState α) (now : ℚ) (key : String) :
    Option α × CacheState α :=
  match dictLookup s.cache key with
  | some v =>
    match dictLookup s.timestamps key with
    | some t =>
      if now - t < cacheTTL then (some v, s)
      else (none, ⟨dictDelete s.cache key, dictDelete s.timestamps key⟩)
    | none => (some v, s)
  | none => (none, s)

/-- CacheManager._evict_oldest picks min over the timestamp keys by
timestamp value; Python min keeps the first minimum in iteration order. -/
def oldestEntry (ts : List (String × ℚ)) : Option (String × ℚ) :=
  match ts with
  | [] => none
  | p :: rest => some (rest.foldl (fun best q => if q.2 < best.2 then q else best) p)

/-- CacheManager._evict_oldest: nothing on an empty timestamp dict,
otherwise delete the oldest key from both dicts. -/
def evictOldest {α : Type} (s : CacheState α) : CacheState α :=
  match oldestEntry s.timestamps with
  | none => s
  | some p => ⟨dictDelete s.cache p.1, dictDelete s.timestamps p.1⟩

/-- CacheManager.set: evict the oldest entry when the value dict is at max
size, then write value and timestamp. -/
def cacheSet {α : Type} (s : CacheState α) (now : ℚ) (key : String) (v : α) :
    CacheState α :=
  let s1 := if cacheMaxSize ≤ s.cache.length then evictOldest s else s
  ⟨dictInsert s1.cache key v, dictInsert s1.timestamps key now⟩

/-- CacheManager.delete: remove the key from both dicts. -/
def cacheDelete {α : Type} (s : CacheState α) (key : String) : CacheState α :=
  ⟨dictDelete s.cache key, dictDelete s.timestamps key⟩

/-- CacheManager.clear: empty both dicts. -/
def cacheClear {α : Type} (_ : CacheState α) : CacheState α := ⟨[], []⟩

/-- One public cache operation. -/
inductive CacheOp (α : Type) where
  | set (now : ℚ) (key : String) (v : α)
  | get (now : ℚ) (key : String)
  | del (key : String)
  | clear

/-- State transition of one operation. -/
def applyOp {α : Type} (s : CacheState α) : CacheOp α → CacheState α
  | .set now k v => cacheSet s now k v
  | .get now k => (cacheGet s now k).2
  | .del k => cacheDelete s k
  | .clear => cacheClear s

/-- The state after a sequence of operations from the fresh cache. -/
def runOps {α : Type} (ops : List (CacheOp α)) : CacheState α :=
  ops.foldl applyOp (emptyCache α)

/-- The keys of a dict, in order. -/
def dictKeys {α : Type} (m : List (String × α)) : List String := m.map (·.1)

theorem dictKeys_dictDelete {α : Type} (m : List (String × α)) (k : String) :
    dictKeys (dictDelete m k) = (dictKeys m).filter (fun x => !(x == k)) := by
  induction m with
  | nil => rfl
  | cons p rest ih =>
    simp only [dictDelete, dictKeys, List.filter_cons, List.map_cons] at *
    cases h : (p.1 == k) <;> simp [h, ih]

theorem dictLookup_isSome_iff {α : Type} (m : List (String × α)) (k : String) :
    (dictLookup m k).isSome ↔ k ∈ dictKeys m := by
  unfold dictLookup dictKeys
  rw [Option.isSome_map', List.find?_isSome]
  constructor
  · rintro ⟨p, hp, hbeq⟩
    exact List.mem_map.mpr ⟨p, hp, by simpa using hbeq⟩
  · rintro h
    rcases List.mem_map.mp h with ⟨p, hp, hk⟩
    exact ⟨p, hp, by simp [hk]⟩

theorem dictKeys_dictInsert_of_mem {α : Type} {m : List (String × α)} {k : String}
    (v : α) (h : k ∈ dictKeys m) :
    dictKeys (dictInsert m k v) = dictKeys m := by
  unfold dictInsert
  rw [if_pos (by rw [← dictLookup_isSome_iff] at h; simpa [dictLookup] using h)]
  unfold dictKeys
  rw [List.map_map]
  apply List.map_congr_left
  intro p _
  by_cases hp : (p.1 == k) = true
  · have hk : p.1 = k := by simpa using hp
    simp [hp, Function.comp, hk]
  · simp only [Bool.not_eq_true] at hp
    simp [hp, Function.comp]

theorem dictKeys_dictInsert_of_not_mem {α : Type} {m : List (String × α)} {k : String}
    (v : α) (h : ¬ k ∈ dictKeys m) :
    dictKeys (dictInsert m k v) = dictKeys m ++ [k] := by
  unfold dictInsert
  rw [if_neg (by rw [← dictLookup_isSome_iff] at h; simpa [dictLookup] using h)]
  unfold dictKeys
  simp

theorem length_dictInsert_of_mem {α : Type} {m : List (String × α)} {k : String}
    (v : α) (h : k ∈ dictKeys m) :
    (dictInsert m k v).length = m.length := by
  unfold dictInsert
  rw [if_pos (by rw [← dictLookup_isSome_iff] at h; simpa [dictLookup] using h)]
  exact List.length_map _ _

theorem length_dictInsert_of_not_mem {α : Type} {m : List (String × α)} {k : String}
    (v : α) (h : ¬ k ∈ dictKeys m) :
    (dictInsert m k v).length = m.length + 1 := by
  unfold dictInsert
  rw [if_neg (by rw [← dictLookup_isSome_iff] at h; simpa [dictLookup] using h)]
  simp

theorem length_dictDelete_le {α : Type} (m : List (String × α)) (k : String) :
    (dictDelete m k).length ≤ m.length :=
  List.length_filter_le _ m

theorem length_dictDelete_lt_of_mem {α : Type} {m : List (String × α)} {k : String}
    (h : k ∈ dictKeys m) :
    (dictDelete m k).length < m.length := by
  induction m with
  | nil => simp [dictKeys] at h
  | cons p rest ih =>
    rcases List.mem_cons.mp h with hk | hk
    · have hp : (p.1 == k) = true := by simp [hk]
      simp only [dictDelete, List.filter_cons, hp, Bool.not_true, List.length_cons]
      exact Nat.lt_succ_of_le (List.length_filter_le _ rest)
    · have := ih hk
      simp only [dictDelete, List.filter_cons] at *
      cases hp : !(p.1 == k) <;> simp [hp] <;> omega

theorem foldl_oldest_spec (l : List (String × ℚ)) (a : String × ℚ) :
    (l.foldl (fun best q => if q.2 < best.2 then q else best) a = a ∨
     l.foldl (fun best q => if q.2 < best.2 then q else best) a ∈ l) ∧
    (l.foldl (fun best q => if q.2 < best.2 then q else best) a).2 ≤ a.2 ∧
    ∀ q ∈ l, (l.foldl (fun best q => if q.2 < best.2 then q else best) a).2 ≤ q.2 := by
  induction l generalizing a with
  | nil => exact ⟨Or.inl rfl, le_refl _, by simp⟩
  | cons q rest ih =>
    simp only [List.foldl_cons]
    rcases ih (if q.2 < a.2 then q else a) with ⟨hmem, hle, hall⟩
    have hle_a : (if q.2 < a.2 then q else a).2 ≤ a.2 := by
      split <;> [exact le_of_lt (by assumption); exact le_refl _]
    have hle_q : (if q.2 < a.2 then q else a).2 ≤ q.2 := by
      split
      · exact le_refl _
      · exact le_of_not_lt (by assumption)
    refine ⟨?_, le_trans hle hle_a, ?_⟩
    · rcases hmem with h | h
      · rw [h]
        split
        · exact Or.inr (List.mem_cons_self _ _)
        · exact Or.inl rfl
      · exact Or.inr (List.mem_cons_of_mem q h)
    · intro r hr
      rcases List.mem_cons.mp hr with rfl | hr2
      · exact le_trans hle hle_q
      · exact hall r hr2

theorem oldestEntry_spec {ts : List (String × ℚ)} {p : String × ℚ}
    (h : oldestEntry ts = some p) :
    p ∈ ts ∧ ∀ q ∈ ts, p.2 ≤ q.2 := by
  cases ts with
  | nil => simp [oldestEntry] at h
  | cons a rest =>
    simp only [oldestEntry, Option.some.injEq] at h
    rcases foldl_oldest_spec rest a with ⟨hmem, hle, hall⟩
    subst h
    constructor
    · rcases hmem with h2 | h2
      · rw [h2]; exact List.mem_cons_self _ _
      · exact List.mem_cons_of_mem a h2
    · intro q hq
      rcases List.mem_cons.mp hq with rfl | hq2
      · exact hle
      · exact hall q hq2

/-- Invariant of the cache state: the two dicts have the same keys in the
same order, and the value dict never exceeds the maximum size. -/
def CacheInv {α : Type} (s : CacheState α) : Prop :=
  dictKeys s.cache = dictKeys s.timestamps ∧ s.cache.length ≤ cacheMaxSize

theorem cacheInv_empty (α : Type) : CacheInv (emptyCache α) := ⟨rfl, by simp [emptyCache]⟩

theorem cacheInv_delete {α : Type} {s : CacheState α} (h : CacheInv s) (k : String) :
    CacheInv (cacheDelete s k) := by
  refine ⟨?_, le_trans (length_dictDelete_le _ _) h.2⟩
  show dictKeys (dictDelete s.cache k) = dictKeys (dictDelete s.timestamps k)
  rw [dictKeys_dictDelete, dictKeys_dictDelete, h.1]

theorem cacheInv_evict {α : Type} {s : CacheState α} (h : CacheInv s) :
    CacheInv (evictOldest s) := by
  unfold evictOldest
  cases ho : oldestEntry s.timestamps with
  | none => exact h
  | some p => exact cacheInv_delete h p.1

theorem length_evictOldest_lt {α : Type} {s : CacheState α} (h : CacheInv s)
    (hne : s.timestamps ≠ []) :
    (evictOldest s).cache.length < s.cache.length := by
  unfold evictOldest
  cases ho : oldestEntry s.timestamps with
  | none => cases hne (by cases hts : s.timestamps with
      | nil => rfl
      | cons a rest => rw [hts] at ho; simp [oldestEntry] at ho)
  | some p =>
    have hp := (oldestEntry_spec ho).1
    have hk : p.1 ∈ dictKeys s.timestamps := List.mem_map.mpr ⟨p, hp, rfl⟩
    rw [← h.1] at hk
    exact length_dictDelete_lt_of_mem hk

theorem length_eq_of_keys_eq {α β : Type} {m : List (String × α)} {m2 : List (String × β)}
    (h : dictKeys m = dictKeys m2) : m.length = m2.length := by
  have := congrArg List.length h
  simpa [dictKeys] using this

theorem cacheInv_set {α : Type} {s : CacheState α} (h : CacheInv s)
    (now : ℚ) (k : String) (v : α) : CacheInv (cacheSet s now k v) := by
  unfold cacheSet
  set s1 := if cacheMaxSize ≤ s.cache.length then evictOldest s else s with hs1
  have hinv1 : CacheInv s1 := by
    rw [hs1]; split
    · exact cacheInv_evict h
    · exact h
  have hmax : cacheMaxSize = 1000 := rfl
  have hb := h.2
  have hlt : ¬ k ∈ dictKeys s1.cache → s1.cache.length < cacheMaxSize := by
    intro _
    by_cases hc : cacheMaxSize ≤ s.cache.length
    · have hs1e : s1 = evictOldest s := by rw [hs1, if_pos hc]
      have hts_ne : s.timestamps ≠ [] := by
        intro hnil
        have hlen := length_eq_of_keys_eq h.1
        rw [hnil, List.length_nil] at hlen
        omega
      have := length_evictOldest_lt h hts_ne
      rw [hs1e]
      omega
    · have hs1e : s1 = s := by rw [hs1, if_neg hc]
      rw [hs1e]
      omega
  by_cases hm : k ∈ dictKeys s1.cache
  · refine ⟨?_, ?_⟩
    · show dictKeys (dictInsert s1.cache k v) = dictKeys (dictInsert s1.timestamps k now)
      rw [dictKeys_dictInsert_of_mem v hm, dictKeys_dictInsert_of_mem now (hinv1.1 ▸ hm)]
      exact hinv1.1
    · show (dictInsert s1.cache k v).length ≤ cacheMaxSize
      rw [length_dictInsert_of_mem v hm]
      exact hinv1.2
  · refine ⟨?_, ?_⟩
    · show dictKeys (dictInsert s1.cache k v) = dictKeys (dictInsert s1.timestamps k now)
      rw [dictKeys_dictInsert_of_not_mem v hm,
        dictKeys_dictInsert_of_not_mem now (hinv1.1 ▸ hm), hinv1.1]
    · show (dictInsert s1.cache k v).length ≤ cacheMaxSize
      rw [length_dictInsert_of_not_mem v hm]
      exact hlt hm

theorem cacheInv_get {α : Type} {s : CacheState α} (h : CacheInv s)
    (now : ℚ) (k : String) : CacheInv (cacheGet s now k).2 := by
  unfold cacheGet
  cases dictLookup s.cache k with
  | none => exact h
  | some v =>
    cases dictLookup s.timestamps k with
    | none => exact h
    | some t =>
      show CacheInv (if now - t < cacheTTL then (some v, s)
        else (none, ⟨dictDelete s.cache k, dictDelete s.timestamps k⟩)).2
      split
      · exact h
      · exact cacheInv_delete h k

theorem cacheInv_applyOp {α : Type} {s : CacheState α} (h : CacheInv s) (op : CacheOp α) :
    CacheInv (applyOp s op) := by
  cases op with
  | set now k v => exact cacheInv_set h now k v
  | get now k => exact cacheInv_get h now k
  | del k => exact cacheInv_delete h k
  | clear => exact ⟨rfl, Nat.zero_le _⟩

theorem cacheInv_runOps {α : Type} (ops : List (CacheOp α)) : CacheInv (runOps ops) := by
  unfold runOps
  have hgen : ∀ (l : List (CacheOp α)) (s : CacheState α), CacheInv s →
      CacheInv (l.foldl applyOp s) := by
    intro l
    induction l with
    | nil => intro s hs; exact hs
    | cons op rest ih =>
      intro s hs
      exact ih _ (cacheInv_applyOp hs op)
  exact hgen ops (emptyCache α) (cacheInv_empty α)

/-- C5: an entry whose timestamp is t is never returned by get once
now - t reaches the TTL of 3600 seconds, and whenever get returns a value
the lookup happened strictly before t + 3600 (and the value is the cached
one). -/
theorem C5_cache_ttl_expiry (α : Type) (s : CacheState α) (now t : ℚ) (key : String)
    (hts : dictLookup s.timestamps key = some t) :
    (cacheTTL ≤ now - t → (cacheGet s now key).1 = none) ∧
    (∀ v, (cacheGet s now key).1 = some v →
      now < t + cacheTTL ∧ dictLookup s.cache key = some v) := by
  unfold cacheGet
  cases hc : dictLookup s.cache key with
  | none => exact ⟨fun _ => rfl, fun v hv => by simp at hv⟩
  | some v0 =>
    rw [hts]
    show (cacheTTL ≤ now - t →
        (if now - t < cacheTTL then (some v0, s)
          else (none, ⟨dictDelete s.cache key, dictDelete s.timestamps key⟩)).1 = none) ∧ _
    by_cases hlt : now - t < cacheTTL
    · simp only [if_pos hlt]
      refine ⟨fun hge => absurd hlt (not_lt.mpr hge), fun v hv => ?_⟩
      have hv2 : v0 = v := by simpa using hv
      exact ⟨by linarith, by rw [hv2]⟩
    · simp only [if_neg hlt]
      exact ⟨fun _ => trivial, fun v hv => by simp at hv⟩

/-- Concrete cache state for the C5 witness: one entry set at time 100. -/
def wCache5 : CacheState ℕ := ⟨[("a", 7)], [("a", 100)]⟩

theorem C5_cache_ttl_expiry_witness :
    dictLookup wCache5.timestamps "a" = some 100 ∧
    ((cacheTTL ≤ 3800 - 100 → (cacheGet wCache5 3800 "a").1 = none) ∧
    (∀ v, (cacheGet wCache5 3800 "a").1 = some v →
      (3800 : ℚ) < 100 + cacheTTL ∧ dictLookup wCache5.cache "a" = some v)) :=
  ⟨by decide, C5_cache_ttl_expiry ℕ wCache5 3800 100 "a" (by decide)⟩

/-- C6: starting from the fresh cache, any sequence of set, get, delete
and clear operations leaves at most 1000 entries in the cache; and a set
on a cache at max size evicts precisely an entry whose timestamp is
minimal (the least-recently-inserted one) before inserting. -/
theorem C6_cache_bounded_and_evicts_oldest :
    (∀ (α : Type) (ops : List (CacheOp α)), (runOps ops).cache.length ≤ cacheMaxSize) ∧
    (∀ (α : Type) (s : CacheState α) (now : ℚ) (key : String) (v : α) (p : String × ℚ),
      cacheMaxSize ≤ s.cache.length →
      oldestEntry s.timestamps = some p →
      p ∈ s.timestamps ∧ (∀ q ∈ s.timestamps, p.2 ≤ q.2) ∧
        cacheSet s now key v =
          ⟨dictInsert (dictDelete s.cache p.1) key v,
           dictInsert (dictDelete s.timestamps p.1) key now⟩) := by
  constructor
  · intro α ops
    exact (cacheInv_runOps ops).2
  · intro α s now key v p hfull hold
    rcases oldestEntry_spec hold with ⟨hmem, hmin⟩
    refine ⟨hmem, hmin, ?_⟩
    unfold cacheSet evictOldest
    rw [if_pos hfull, hold]

/-- Concrete full cache (1000 entries) for the C6 witness; the timestamp
dict holds two entries of which the second is the oldest. -/
def wCache6 : CacheState ℕ :=
  ⟨List.replicate 1000 ("a", 0), [("b", 5), ("c", 3)]⟩

theorem C6_cache_bounded_and_evicts_oldest_witness :
    ((runOps ([CacheOp.set 1 "a" 2] : List (CacheOp ℕ))).cache.length ≤ cacheMaxSize) ∧
    cacheMaxSize ≤ wCache6.cache.length ∧
    oldestEntry wCache6.timestamps = some ("c", 3) ∧
    (("c", (3 : ℚ)) ∈ wCache6.timestamps ∧
      (∀ q ∈ wCache6.timestamps, (3 : ℚ) ≤ q.2) ∧
      cacheSet wCache6 42 "d" 9 =
        ⟨dictInsert (dictDelete wCache6.cache "c") "d" 9,
         dictInsert (dictDelete wCache6.timestamps "c") "d" 42⟩) := by
  have h1 : cacheMaxSize ≤ wCache6.cache.length := by
    show cacheMaxSize ≤ (List.replicate 1000 ("a", (0 : ℕ))).length
    rw [List.length_replicate]
    exact Nat.le.refl
  have h2 : oldestEntry wCache6.timestamps = some ("c", 3) := by decide
  exact ⟨C6_cache_bounded_and_evicts_oldest.1 ℕ _, h1, h2,
    C6_cache_bounded_and_evicts_oldest.2 ℕ wCache6 42 "d" 9 ("c", 3) h1 h2⟩

/-- The condition of the fallback branch of CacheManager.get: the key has
a cached value but no timestamp, in which case the value is returned with
no expiry check. -/
def getFallbackHit {α : Type} (s : CacheState α) (key : String) : Bool :=
  (dictLookup s.cache key).isSome && !(dictLookup s.timestamps key).isSome

/-- C10: after any operation sequence from the fresh cache, the value dict
and the timestamp dict always hold exactly the same keys, so the fallback
branch of get (cached value without timestamp) can never be taken. -/
theorem C10_cache_keys_sync (α : Type) (ops : List (CacheOp α)) :
    dictKeys (runOps ops).cache = dictKeys (runOps ops).timestamps ∧
    ∀ key, getFallbackHit (runOps ops) key = false := by
  refine ⟨(cacheInv_runOps ops).1, ?_⟩
  intro key
  unfold getFallbackHit
  have hkeys := (cacheInv_runOps ops).1
  by_cases hm : key ∈ dictKeys (runOps ops).cache
  · have h2 : (dictLookup (runOps ops).timestamps key).isSome := by
      rw [dictLookup_isSome_iff]
      rw [← hkeys]
      exact hm
    rw [h2]
    simp
  · have h1 : ¬ (dictLookup (runOps ops).cache key).isSome = true := by
      rw [dictLookup_isSome_iff]
      exact hm
    rw [Bool.not_eq_true] at h1
    rw [h1]
    simp

/-! ### Mutex behaviour of the cache methods

CacheManager._lock is a plain (non-reentrant) threading.Lock. Each public
method wraps its body in one with-block; _evict_oldest, called from set
while the lock is held, calls the public delete, which opens a second
with-block on the same lock. The lock operations each method performs are
modelled as a trace of acquire and release events, and a trace deadlocks
when it tries to acquire while already holding. -/

/-- One mutex event. -/
inductive LockEvent where
  | acq
  | rel
deriving DecidableEq, BEq

/-- Lock events of CacheManager.delete: one with-block. -/
def deleteLockTrace : List LockEvent := [LockEvent.acq, LockEvent.rel]

/-- Lock events of CacheManager._evict_oldest: none on an empty timestamp
dict, otherwise those of the delete call. -/
def evictOldestLockTrace {α : Type} (s : CacheState α) : List LockEvent :=
  if s.timestamps.isEmpty then [] else deleteLockTrace

/-- Lock events of CacheManager.set: enter the with-block, run
_evict_oldest when the cache is at max size, leave the with-block. -/
def setLockTrace {α : Type} (s : CacheState α) : List LockEvent :=
  [LockEvent.acq]
    ++ (if cacheMaxSize ≤ s.cache.length then evictOldestLockTrace s else [])
    ++ [LockEvent.rel]

/-- Lock events of CacheManager.get: one with-block. -/
def getLockTrace : List LockEvent := [LockEvent.acq, LockEvent.rel]

/-- Lock events of CacheManager.clear: one with-block. -/
def clearLockTrace : List LockEvent := [LockEvent.acq, LockEvent.rel]

/-- Whether a trace attempts to acquire the non-reentrant lock while
already holding it: from that point the thread blocks forever. -/
def deadlocksAux : Bool → List LockEvent → Bool
  | _, [] => false
  | held, LockEvent.acq :: rest => if held then true else deadlocksAux true rest
  | _, LockEvent.rel :: rest => deadlocksAux false rest

/-- A trace deadlocks when some acquire happens while the lock is held. -/
def deadlocks (t : List LockEvent) : Bool := deadlocksAux false t

/-- A cache filled to max size with distinct keys, all entries stamped at
time 0. -/
def fullCache1000 : CacheState ℕ :=
  ⟨(List.range cacheMaxSize).map (fun i => (toString i, 0)),
   (List.range cacheMaxSize).map (fun i => (toString i, 0))⟩

set_option maxRecDepth 4000 in
/-- C9: refuted on the code - on a cache at max size, set holds the mutex
and calls delete through _evict_oldest, which tries to acquire the same
non-reentrant mutex again: the trace acquires twice and deadlocks, so set
does not complete. The other operations acquire once and never deadlock. -/
theorem C9_set_deadlocks_at_capacity :
    setLockTrace fullCache1000 =
      [LockEvent.acq, LockEvent.acq, LockEvent.rel, LockEvent.rel] ∧
    deadlocks (setLockTrace fullCache1000) = true ∧
    (setLockTrace fullCache1000).count LockEvent.acq = 2 ∧
    deadlocks getLockTrace = false ∧
    deadlocks deleteLockTrace = false ∧
    deadlocks clearLockTrace = false := by
  have hlen : cacheMaxSize ≤ fullCache1000.cache.length := by
    show cacheMaxSize ≤ ((List.range cacheMaxSize).map (fun i => (toString i, 0))).length
    rw [List.length_map, List.length_range]
  have hne : fullCache1000.timestamps.isEmpty = false := by
    show ((List.range cacheMaxSize).map (fun i => (toString i, 0))).isEmpty = false
    simp [cacheMaxSize]
  have htrace : setLockTrace fullCache1000 =
      [LockEvent.acq, LockEvent.acq, LockEvent.rel, LockEvent.rel] := by
    unfold setLockTrace evictOldestLockTrace
    rw [if_pos hlen, hne]
    rfl
  refine ⟨htrace, ?_, ?_, rfl, rfl, rfl⟩
  · rw [htrace]; rfl
  · rw [htrace]; rfl

/-! ### CSV import of options (load_questions_to_db in app.py)

A CSV row is modelled as a function from column name to optional cell
(DictReader returns None for a missing column). The options cells A to E
are collected into a JSON object serialised with json.dumps; only the
object structure matters here. -/

/-- Minimal JSON values: strings and objects. -/
inductive Json where
  | str (s : String)
  | obj (fields : List (String × Json))

/-- Python str.strip: drop leading and trailing whitespace. -/
def pyStrip (s : String) : String :=
  ⟨(((s.toList.dropWhile Char.isWhitespace).reverse.dropWhile Char.isWhitespace).reverse)⟩

/-- The option columns read by load_questions_to_db. -/
def optionLetters : List String := ["A", "B", "C", "D", "E"]

/-- The entry contributed by one option column: the letter with its
stripped text when the cell is present, truthy, and truthy after strip,
nothing otherwise. -/
def optionCellEntry (row : String → Option String) (opt : String) :
    Option (String × String) :=
  match row opt with
  | some s => if s ≠ "" && pyStrip s ≠ "" then some (opt, pyStrip s) else none
  | none => none

/-- The options dict built per row, looping over the letters in order. -/
def parse_options (row : String → Option String) : List (String × String) :=
  optionLetters.filterMap (optionCellEntry row)

/-- The serialised options JSON object stored in the questions table. -/
def storedOptionsJson (row : String → Option String) : Json :=
  Json.obj ((parse_options row).map (fun p => (p.1, Json.str p.2)))

/-- Field lookup in a JSON object. -/
def jsonObjLookup : Json → String → Option Json
  | Json.obj fields, k => (fields.find? (fun p => p.1 == k)).map (·.2)
  | Json.str _, _ => none

/-- A concrete CSV row for C8: option B has text, every other cell is
empty. -/
def cRow8 : String → Option String := fun k => if k = "B" then some "x" else some ""

/-- C8 counterexample: for the row whose cell A is empty, the stored
options JSON has no entry at all under the letter A - in particular it
does not record an empty JSON object for it, as the claim states. -/
theorem C8_counterexample :
    jsonObjLookup (storedOptionsJson cRow8) "A" = none ∧
    ¬ jsonObjLookup (storedOptionsJson cRow8) "A" = some (Json.obj []) := by
  have h : jsonObjLookup (storedOptionsJson cRow8) "A" = none := rfl
  exact ⟨h, by rw [h]; intro hcon; cases hcon⟩

theorem mem_parse_options {row : String → Option String} {p : String × String}
    (hp : p ∈ parse_options row) :
    ∃ s, row p.1 = some s ∧ s ≠ "" ∧ pyStrip s ≠ "" ∧ p.2 = pyStrip s := by
  unfold parse_options at hp
  rcases List.mem_filterMap.mp hp with ⟨opt, _, heq⟩
  unfold optionCellEntry at heq
  cases hr : row opt with
  | none => rw [hr] at heq; simp at heq
  | some s =>
    rw [hr] at heq
    simp only [] at heq
    split at heq
    · rename_i hcond
      have hpe : (opt, pyStrip s) = p := by injection heq
      rcases Bool.and_eq_true _ _ |>.mp hcond with ⟨h1, h2⟩
      refine ⟨s, ?_, by simpa using h1, by simpa using h2, ?_⟩
      · rw [← hpe]; exact hr
      · rw [← hpe]
    · cases heq

/-- C8 amended: a CSV option cell that is missing, empty or
whitespace-only produces no entry in the stored options JSON: the letter
is simply absent from the object (and a cell with text is stored under its
letter with the text stripped). -/
theorem C8_amended_empty_option_omitted (row : String → Option String) (letter : String)
    (hcell : row letter = none ∨ ∃ s, row letter = some s ∧ pyStrip s = "") :
    jsonObjLookup (storedOptionsJson row) letter = none := by
  unfold storedOptionsJson jsonObjLookup
  simp only []
  rw [Option.map_eq_none', List.find?_eq_none]
  intro p hp hbeq
  rcases List.mem_map.mp hp with ⟨q, hq, rfl⟩
  rcases mem_parse_options hq with ⟨s, hrow, hne, hstrip, _⟩
  have hkey : q.1 = letter := by simpa using hbeq
  rw [hkey] at hrow
  rcases hcell with hnone | ⟨s2, hsome, hs2⟩
  · rw [hnone] at hrow; cases hrow
  · rw [hsome] at hrow
    have : s2 = s := by injection hrow
    rw [this] at hs2
    exact hstrip hs2

theorem C8_amended_witness :
    (cRow8 "A" = none ∨ ∃ s, cRow8 "A" = some s ∧ pyStrip s = "") ∧
    jsonObjLookup (storedOptionsJson cRow8) "A" = none :=
  ⟨Or.inr ⟨"", rfl, rfl⟩,
   C8_amended_empty_option_omitted cRow8 "A" (Or.inr ⟨"", rfl, rfl⟩)⟩

end LearningSystem
